import Mathlib

/-!
Shallow embedding of the SSE streaming client in
`src/frontend/src/hooks/useSSE.ts`.

The parser loop (lines 61-128 of the source) is modelled at the level of
decoded text: a chunk is a `List Char`, the parser state is the pending
partial line (`buffer` in the source) together with the in-progress event
accumulator (`currentEvent`).  JavaScript string truthiness (the checks
`if (currentEvent.data)` and `currentEvent.data ? ... : ...`) is modelled
by `truthy`, which is false for an absent field and for the empty string.
-/

namespace SSE

abbrev Line := List Char

/-- JavaScript `String.prototype.trim` whitespace (WhiteSpace ∪ LineTerminator). -/
def jsWhitespace (c : Char) : Bool :=
  c = ' ' || c = '\t' || c = '\n' || c = '\u000d' || c = '\u000b' || c = '\u000c' ||
  c = '\u00a0' || c = '\u1680' || ('\u2000' ≤ c && c ≤ '\u200a') ||
  c = '\u2028' || c = '\u2029' || c = '\u202f' || c = '\u205f' ||
  c = '\u3000' || c = '\ufeff'

/-- `line.trim()` : strip leading and trailing JS whitespace. -/
def jsTrim (l : Line) : Line :=
  ((l.dropWhile jsWhitespace).reverse.dropWhile jsWhitespace).reverse

/-- JS truthiness of `currentEvent.data` (a possibly-absent string). -/
def truthy : Option Line → Bool
  | none => false
  | some d => !d.isEmpty

/-- `if (value.startsWith(' ')) value = value.slice(1)` : remove at most one
leading space from a field value. -/
def stripLeadSpace (l : Line) : Line :=
  if l.head? = some ' ' then l.drop 1 else l

/-- The emitted record (`SSEMessage` in the source): `event?: string`,
`data: string`, `id?: string`. -/
structure SSEMessage where
  event : Option Line
  data : Line
  id : Option Line
  deriving DecidableEq, Repr

/-- `currentEvent : Partial<SSEMessage>` : the in-progress accumulation. -/
structure Acc where
  event : Option Line
  data : Option Line
  id : Option Line
  deriving DecidableEq, Repr

def Acc.empty : Acc := ⟨none, none, none⟩

/-- The `switch (field)` of the source: `event` and `id` overwrite, `data`
appends with a newline separator when the accumulated data is truthy
(defined and non-empty), `retry` and unknown field names change nothing. -/
def applyField (acc : Acc) (field value : Line) : Acc :=
  if field = "event".toList then { acc with event := some value }
  else if field = "data".toList then
    let joined := if truthy acc.data then acc.data.getD [] ++ '\n' :: value else value
    { acc with data := some joined }
  else if field = "id".toList then { acc with id := some value }
  else acc

/-- One iteration of `for (const line of lines)` (source lines 78-127):
blank line (after trim) emits the accumulator when its data is truthy and
resets it; a line starting with `:` is a comment; a line with no `:` is
ignored; otherwise the line is split at the first `:` (`takeWhile` /
`dropWhile` compute `slice(0, colonIndex)` and `slice(colonIndex + 1)`),
at most one leading space is stripped from the value, and the field is
dispatched. -/
def procLine (acc : Acc) (line : Line) : Acc × List SSEMessage :=
  if jsTrim line = [] then
    (Acc.empty, if truthy acc.data then [⟨acc.event, acc.data.getD [], acc.id⟩] else [])
  else if line.head? = some ':' then (acc, [])
  else if ':' ∈ line then
    let field := line.takeWhile (fun c => c ≠ ':')
    let value := stripLeadSpace ((line.dropWhile (fun c => c ≠ ':')).drop 1)
    (applyField acc field value, [])
  else (acc, [])

/-- Process a list of complete lines in order, concatenating emissions. -/
def procLines : Acc → List Line → Acc × List SSEMessage
  | acc, [] => (acc, [])
  | acc, l :: ls =>
    let r1 := procLine acc l
    let r2 := procLines r1.1 ls
    (r2.1, r1.2 ++ r2.2)

/-- `buffer.split('\n')` with the last element popped off: `scanLines cur s`
returns the complete lines of `cur ++ s` (given `cur` newline-free) and the
trailing segment after the last newline. -/
def scanLines : Line → Line → List Line × Line
  | cur, [] => ([], cur)
  | cur, c :: cs =>
    if c = '\n' then
      let r := scanLines [] cs
      (cur :: r.1, r.2)
    else
      scanLines (cur ++ [c]) cs

def splitLines (s : Line) : List Line × Line := scanLines [] s

/-- Parser state carried across reads: `buffer` (the pending partial line)
and `currentEvent`. -/
structure PState where
  pending : Line
  acc : Acc
  deriving DecidableEq, Repr

def initState : PState := ⟨[], Acc.empty⟩

/-- One loop iteration on a decoded chunk (source lines 72-127): append the
chunk to the buffer, split on `'\n'`, keep the final segment as the new
buffer, process the complete lines. -/
def feed (st : PState) (chunk : Line) : PState × List SSEMessage :=
  let r := splitLines (st.pending ++ chunk)
  let p := procLines st.acc r.1
  (⟨r.2, p.1⟩, p.2)

/-- Feed a sequence of chunks one at a time, concatenating emissions. -/
def feedList : PState → List Line → PState × List SSEMessage
  | st, [] => (st, [])
  | st, c :: cs =>
    let r1 := feed st c
    let r2 := feedList r1.1 cs
    (r2.1, r1.2 ++ r2.2)

/-! ## Connection manager model

The `connect` procedure (source lines 33-135) is an async function with
suspension points at `await getToken()` (await index 0), `await fetch(...)`
(await index 1) and each `await reader.read()` (await indices 2, 3, ...).
A subscription attempt is driven by: whether the token supplier resolves,
whether the response is `ok`, the planned sequence of read results, and the
await index before whose completion `abort()` fires (if any).  A pending
`fetch`/`read` bound to the abort signal rejects with an `AbortError` once
the signal fires; `getToken` is not signal-bound, but a rejection landing
after the abort is suppressed by the catch guard all the same.  The catch
block (lines 129-134) invokes `onError` only when the signal was not yet
aborted at throw time (`isSubscribed` is cleared only by the effect cleanup,
which also aborts, so the `isSubscribed` conjunct adds nothing). -/

/-- Outcome of one `reader.read()` as planned by the transport. -/
inductive ReadRes where
  | chunk (s : Line)
  | done
  | fail
  deriving DecidableEq, Repr

def ReadRes.isChunk : ReadRes → Bool
  | .chunk _ => true
  | _ => false

/-- One subscription attempt's environment. `cancel = some k` means the
abort fired before await number `k` completed. -/
structure Attempt where
  tokenOk : Bool
  responseOk : Bool
  reads : List ReadRes
  cancel : Option Nat
  deriving DecidableEq, Repr

/-- Has the abort signal fired by the time await `i` completes? -/
def cancelledAt (c : Option Nat) (i : Nat) : Bool :=
  match c with
  | none => false
  | some k => k ≤ i

/-- The `while (isSubscribed)` read loop (source lines 64-128), starting at
await index `i`.  Returns the `onMessage` payloads in order, and `some b`
if the loop threw, where `b` records whether the abort signal was set at
throw time; `none` if it returned normally (`done` break, or no further
read results to model). -/
def readPhase (c : Option Nat) : Nat → PState → List ReadRes → List SSEMessage × Option Bool
  | _, _, [] => ([], none)
  | i, st, r :: rest =>
    if cancelledAt c i then ([], some true)
    else
      match r with
      | .done => ([], none)
      | .fail => ([], some false)
      | .chunk s =>
        let f := feed st s
        let r2 := readPhase c (i + 1) f.1 rest
        (f.2 ++ r2.1, r2.2)

/-- The body of the `try` (source lines 34-128): token acquisition, fetch,
`response.ok` check, then the read loop. -/
def tryBody (a : Attempt) : List SSEMessage × Option Bool :=
  if cancelledAt a.cancel 0 then ([], some true)
  else if !a.tokenOk then ([], some false)
  else if cancelledAt a.cancel 1 then ([], some true)
  else if !a.responseOk then ([], some false)
  else readPhase a.cancel 2 initState a.reads

/-- One whole subscription attempt: the messages delivered to `onMessage`
and the number of `onError` invocations (the catch fires it only when the
abort signal was not set at throw time). -/
def runAttempt (a : Attempt) : List SSEMessage × Nat :=
  let r := tryBody a
  (r.1, match r.2 with | some false => 1 | _ => 0)

/-! ## Classification and specification-side definitions -/

/-- Does this complete line reach the `data` case of the switch?  Mirrors
the branch structure of `procLine`. -/
def setsData (l : Line) : Bool :=
  if jsTrim l = [] then false
  else if l.head? = some ':' then false
  else if ':' ∈ l then l.takeWhile (fun c => c ≠ ':') = "data".toList
  else false

/-- Does this complete line reach the `event` case of the switch? -/
def setsEvent (l : Line) : Bool :=
  if jsTrim l = [] then false
  else if l.head? = some ':' then false
  else if ':' ∈ l then l.takeWhile (fun c => c ≠ ':') = "event".toList
  else false

/-- A canonical `data` field line carrying value `v`. -/
def mkDataLine (v : Line) : Line := "data: ".toList ++ v

/-- Specification-side join of data values: a value is joined with a `'\n'`
separator only onto an already non-empty accumulation (so a leading run of
empty values contributes nothing). -/
def joinSem (vs : List Line) : Line :=
  vs.foldl (fun a v => if a = [] then v else a ++ '\n' :: v) []

/-- Specification-side reconstruction: re-join split lines with `'\n'` and
append the trailing pending segment. -/
def joinLines : List Line → Line → Line
  | [], p => p
  | l :: ls, p => l ++ '\n' :: joinLines ls p

/-! ## Line-splitting lemmas -/

theorem scanLines_append (a : Line) : ∀ (cur b : Line),
    scanLines cur (a ++ b) =
      ((scanLines cur a).1 ++ (scanLines (scanLines cur a).2 b).1,
       (scanLines (scanLines cur a).2 b).2) := by
  induction a with
  | nil => intro cur b; simp [scanLines]
  | cons c cs ih =>
    intro cur b
    by_cases h : c = '\n'
    · subst h
      simp [scanLines, ih]
    · simp [scanLines, h, ih]

theorem scanLines_pending_no_newline : ∀ (s cur : Line), '\n' ∉ cur →
    '\n' ∉ (scanLines cur s).2 := by
  intro s
  induction s with
  | nil => intro cur h; simpa [scanLines] using h
  | cons c cs ih =>
    intro cur h
    by_cases hc : c = '\n'
    · subst hc
      simpa [scanLines] using ih [] (by simp)
    · simp only [scanLines, if_neg hc]
      refine ih (cur ++ [c]) ?_
      intro hm
      rcases List.mem_append.mp hm with h1 | h1
      · exact h h1
      · exact hc (List.mem_singleton.mp h1).symm

theorem scanLines_of_no_newline : ∀ (p : Line), '\n' ∉ p → ∀ (cur s : Line),
    scanLines cur (p ++ s) = scanLines (cur ++ p) s := by
  intro p
  induction p with
  | nil => intro _ cur s; simp
  | cons c cs ih =>
    intro h cur s
    have hc : ¬c = '\n' := fun he => h (he ▸ List.mem_cons_self c cs)
    have h2 : '\n' ∉ cs := fun hm => h (List.mem_cons_of_mem _ hm)
    simp [scanLines, hc, ih h2, List.append_assoc]

theorem procLines_append (xs : List Line) : ∀ (acc : Acc) (ys : List Line),
    procLines acc (xs ++ ys) =
      ((procLines (procLines acc xs).1 ys).1,
       (procLines acc xs).2 ++ (procLines (procLines acc xs).1 ys).2) := by
  induction xs with
  | nil => intro acc ys; simp [procLines]
  | cons l ls ih => intro acc ys; simp [procLines, ih, List.append_assoc]

theorem feed_nil (st : PState) (h : '\n' ∉ st.pending) : feed st [] = (st, []) := by
  unfold feed splitLines
  rw [scanLines_of_no_newline st.pending h [] []]
  simp [scanLines, procLines]

theorem feed_pending_no_newline (st : PState) (a : Line) :
    '\n' ∉ (feed st a).1.pending :=
  scanLines_pending_no_newline (st.pending ++ a) [] (by simp)

theorem feed_append (st : PState) (a b : Line) :
    feed st (a ++ b) =
      ((feed (feed st a).1 b).1,
       (feed st a).2 ++ (feed (feed st a).1 b).2) := by
  have hp : '\n' ∉ (scanLines [] (st.pending ++ a)).2 :=
    scanLines_pending_no_newline (st.pending ++ a) [] (by simp)
  simp only [feed, splitLines]
  rw [← List.append_assoc, scanLines_append (st.pending ++ a) [] b,
    scanLines_of_no_newline _ hp [] b, procLines_append]
  simp

theorem feedList_eq_feed_join : ∀ (cs : List Line) (st : PState), '\n' ∉ st.pending →
    feedList st cs = feed st cs.flatten := by
  intro cs
  induction cs with
  | nil => intro st h; simp [feedList, List.flatten, feed_nil st h]
  | cons c cs ih =>
    intro st h
    simp only [feedList, List.flatten_cons]
    rw [feed_append st c cs.flatten, ih (feed st c).1 (feed_pending_no_newline st c)]

/-! ## Line-classification lemmas -/

theorem jsTrim_eq_nil_iff (l : Line) : jsTrim l = [] ↔ ∀ c ∈ l, jsWhitespace c := by
  unfold jsTrim
  rw [List.reverse_eq_nil_iff, List.dropWhile_eq_nil_iff]
  constructor
  · intro H c hc
    rcases List.mem_append.mp
        ((List.takeWhile_append_dropWhile (p := jsWhitespace) (l := l)) ▸ hc) with h1 | h1
    · exact List.mem_takeWhile_imp h1
    · exact H c (List.mem_reverse.mpr h1)
  · intro H c hc
    exact H c ((List.dropWhile_sublist jsWhitespace).subset (List.mem_reverse.mp hc))

theorem jsTrim_colon_line_ne_nil (f v : Line) : jsTrim (f ++ ':' :: v) ≠ [] := by
  intro H
  have h1 := (jsTrim_eq_nil_iff _).mp H ':' (by simp)
  simp [jsWhitespace] at h1

theorem takeWhile_field (f v : Line) (h : ':' ∉ f) :
    (f ++ ':' :: v).takeWhile (fun c => c ≠ ':') = f := by
  induction f with
  | nil => simp [List.takeWhile]
  | cons a f' ih =>
    have ha : ¬a = ':' := fun he => h (he ▸ List.mem_cons_self a f')
    have h' : ':' ∉ f' := fun hm => h (List.mem_cons_of_mem _ hm)
    rw [List.cons_append, List.takeWhile_cons,
      if_pos (show decide (a ≠ ':') = true by simpa using ha), ih h']

theorem dropWhile_field (f v : Line) (h : ':' ∉ f) :
    (f ++ ':' :: v).dropWhile (fun c => c ≠ ':') = ':' :: v := by
  induction f with
  | nil => simp [List.dropWhile]
  | cons a f' ih =>
    have ha : ¬a = ':' := fun he => h (he ▸ List.mem_cons_self a f')
    have h' : ':' ∉ f' := fun hm => h (List.mem_cons_of_mem _ hm)
    rw [List.cons_append, List.dropWhile_cons,
      if_pos (show decide (a ≠ ':') = true by simpa using ha), ih h']

theorem applyField_other (acc : Acc) (f v : Line) (he : f ≠ "event".toList)
    (hd : f ≠ "data".toList) (hi : f ≠ "id".toList) : applyField acc f v = acc := by
  unfold applyField
  rw [if_neg he, if_neg hd, if_neg hi]

/-- Splitting at the first `:` : a non-comment field line decomposes into the
name before the first colon and the value after it (one leading space
stripped by `stripLeadSpace`). -/
theorem procLine_field (acc : Acc) (f v : Line) (h : ':' ∉ f) :
    procLine acc (f ++ ':' :: v) = (applyField acc f (stripLeadSpace v), []) := by
  unfold procLine
  rw [if_neg (jsTrim_colon_line_ne_nil f v)]
  cases f with
  | nil =>
    rw [if_pos (by simp)]
    rw [applyField_other acc [] _ (by decide) (by decide) (by decide)]
  | cons a f' =>
    have ha : ¬a = ':' := fun he => h (he ▸ List.mem_cons_self a f')
    rw [if_neg (by simp [ha]), if_pos (by simp)]
    simp only [takeWhile_field _ _ h, dropWhile_field _ _ h, List.drop_succ_cons,
      List.drop_zero]

/-! ## Field-update classification -/

theorem applyField_data_of_ne (acc : Acc) (f v : Line) (h : f ≠ "data".toList) :
    (applyField acc f v).data = acc.data := by
  unfold applyField
  by_cases he : f = "event".toList
  · simp [he]
  · rw [if_neg he, if_neg h]
    by_cases hi : f = "id".toList
    · simp [hi]
    · rw [if_neg hi]

theorem applyField_event_of_ne (acc : Acc) (f v : Line) (h : f ≠ "event".toList) :
    (applyField acc f v).event = acc.event := by
  unfold applyField
  rw [if_neg h]
  by_cases hd : f = "data".toList
  · simp [hd]
  · rw [if_neg hd]
    by_cases hi : f = "id".toList
    · simp [hi]
    · rw [if_neg hi]

/-- A line that does not reach the `data` case emits nothing when the
accumulated data is not truthy, and leaves it non-truthy. -/
theorem procLine_no_data (acc : Acc) (l : Line) (hd : setsData l = false)
    (ht : truthy acc.data = false) :
    (procLine acc l).2 = [] ∧ truthy (procLine acc l).1.data = false := by
  unfold procLine
  by_cases h1 : jsTrim l = []
  · rw [if_pos h1]
    refine ⟨by simp [ht], ?_⟩
    simp [Acc.empty, truthy]
  · by_cases h2 : l.head? = some ':'
    · simp [h1, h2, ht]
    · by_cases h3 : ':' ∈ l
      · have hf : l.takeWhile (fun c => c ≠ ':') ≠ "data".toList := by
          rw [setsData, if_neg h1, if_neg h2, if_pos h3] at hd
          intro he
          rw [he] at hd
          simp at hd
        simp only [if_neg h1, if_neg h2, if_pos h3]
        refine ⟨by simp, ?_⟩
        rw [applyField_data_of_ne _ _ _ hf]
        exact ht
      · simp [h1, h2, h3, ht]

/-- A line that does not reach the `event` case leaves `event` unset, and
any record it emits carries the unset `event`. -/
theorem procLine_no_event (acc : Acc) (l : Line) (hd : setsEvent l = false)
    (he : acc.event = none) :
    (procLine acc l).1.event = none ∧ ∀ m ∈ (procLine acc l).2, m.event = none := by
  unfold procLine
  by_cases h1 : jsTrim l = []
  · by_cases h4 : truthy acc.data = true
    · simp [h1, h4, Acc.empty, he]
    · simp [h1, eq_false_of_ne_true h4, Acc.empty]
  · by_cases h2 : l.head? = some ':'
    · simp [h1, h2, he]
    · by_cases h3 : ':' ∈ l
      · have hf : l.takeWhile (fun c => c ≠ ':') ≠ "event".toList := by
          rw [setsEvent, if_neg h1, if_neg h2, if_pos h3] at hd
          intro hx
          rw [hx] at hd
          simp at hd
        simp only [if_neg h1, if_neg h2, if_pos h3]
        refine ⟨?_, by simp⟩
        rw [applyField_event_of_ne _ _ _ hf]
        exact he
      · simp [h1, h2, h3, he]

theorem procLines_no_data (ls : List Line) : ∀ acc : Acc,
    (∀ l ∈ ls, setsData l = false) → truthy acc.data = false →
    (procLines acc ls).2 = [] ∧ truthy (procLines acc ls).1.data = false := by
  induction ls with
  | nil => intro acc _ ht; exact ⟨rfl, ht⟩
  | cons l ls ih =>
    intro acc hall ht
    have h1 := procLine_no_data acc l (hall l (List.mem_cons_self l ls)) ht
    have h2 := ih (procLine acc l).1 (fun x hx => hall x (List.mem_cons_of_mem _ hx)) h1.2
    simp [procLines, h1.1, h2.1, h2.2]

theorem procLines_no_event (ls : List Line) : ∀ acc : Acc,
    (∀ l ∈ ls, setsEvent l = false) → acc.event = none →
    (procLines acc ls).1.event = none ∧ ∀ m ∈ (procLines acc ls).2, m.event = none := by
  induction ls with
  | nil => intro acc _ he; exact ⟨he, by simp [procLines]⟩
  | cons l ls ih =>
    intro acc hall he
    have h1 := procLine_no_event acc l (hall l (List.mem_cons_self l ls)) he
    have h2 := ih (procLine acc l).1 (fun x hx => hall x (List.mem_cons_of_mem _ hx)) h1.1
    refine ⟨by simp [procLines, h2.1], ?_⟩
    intro m hm
    simp only [procLines, List.mem_append] at hm
    rcases hm with hm | hm
    · exact h1.2 m hm
    · exact h2.2 m hm

/-! ## Emission lemmas -/

/-- A non-blank line never emits a record. -/
theorem procLine_nonblank_no_emit (acc : Acc) (l : Line) (h : jsTrim l ≠ []) :
    (procLine acc l).2 = [] := by
  unfold procLine
  rw [if_neg h]
  by_cases h2 : l.head? = some ':'
  · simp [h2]
  · by_cases h3 : ':' ∈ l <;> simp [h2, h3]

theorem procLines_nonblank_no_emit (ls : List Line) : ∀ acc : Acc,
    (∀ l ∈ ls, jsTrim l ≠ []) → (procLines acc ls).2 = [] := by
  induction ls with
  | nil => intro acc _; rfl
  | cons l ls ih =>
    intro acc hall
    simp [procLines,
      procLine_nonblank_no_emit acc l (hall l (List.mem_cons_self l ls)),
      ih (procLine acc l).1 fun x hx => hall x (List.mem_cons_of_mem _ hx)]

/-! ## Data-join lemmas -/

theorem procLine_dataLine (acc : Acc) (v : Line) :
    procLine acc (mkDataLine v) =
      (⟨acc.event, some (if truthy acc.data then acc.data.getD [] ++ '\n' :: v else v),
        acc.id⟩, []) := by
  have hm : mkDataLine v = "data".toList ++ ':' :: ' ' :: v := rfl
  have hs : stripLeadSpace (' ' :: v) = v := by simp [stripLeadSpace]
  rw [hm, procLine_field acc _ _ (by decide), hs]
  unfold applyField
  rw [if_neg (by decide), if_pos rfl]

theorem procLines_dataLines : ∀ (vs : List Line) (acc : Acc),
    procLines acc (vs.map mkDataLine) =
      (⟨acc.event,
        vs.foldl (fun o v => some (if truthy o then o.getD [] ++ '\n' :: v else v)) acc.data,
        acc.id⟩, []) := by
  intro vs
  induction vs with
  | nil => intro acc; simp [procLines]
  | cons v tl ih =>
    intro acc
    simp only [List.map_cons, procLines, procLine_dataLine, List.foldl_cons]
    rw [ih]
    simp

theorem foldl_step_some : ∀ (vs : List Line) (a : Line),
    vs.foldl (fun o v => some (if truthy o then o.getD [] ++ '\n' :: v else v)) (some a)
      = some (vs.foldl (fun a v => if a = [] then v else a ++ '\n' :: v) a) := by
  intro vs
  induction vs with
  | nil => intro a; rfl
  | cons v tl ih =>
    intro a
    rw [List.foldl_cons, List.foldl_cons]
    have h2 : some (if truthy (some a) then (some a).getD [] ++ '\n' :: v else v)
        = some (if a = [] then v else a ++ '\n' :: v) := by
      by_cases h : a = [] <;> simp [truthy, h]
    rw [h2]
    exact ih _

theorem foldl_step_none (vs : List Line) :
    vs.foldl (fun o v => some (if truthy o then o.getD [] ++ '\n' :: v else v)) none
      = if vs = [] then none else some (joinSem vs) := by
  cases vs with
  | nil => rfl
  | cons v tl =>
    rw [List.foldl_cons]
    have h1 : some (if truthy none then (none : Option Line).getD [] ++ '\n' :: v else v)
        = some v := by simp [truthy]
    rw [h1, foldl_step_some, if_neg (by simp)]
    simp [joinSem]

/-! ## Split reconstruction -/

theorem joinLines_scanLines : ∀ (s cur : Line),
    joinLines (scanLines cur s).1 (scanLines cur s).2 = cur ++ s := by
  intro s
  induction s with
  | nil => intro cur; simp [scanLines, joinLines]
  | cons c cs ih =>
    intro cur
    by_cases hc : c = '\n'
    · subst hc
      simpa [scanLines, joinLines] using ih []
    · simp [scanLines, hc, joinLines, ih (cur ++ [c]), List.append_assoc]

theorem scanLines_no_newline (s : Line) (h : '\n' ∉ s) : scanLines [] s = ([], s) := by
  have := scanLines_of_no_newline s h [] []
  rwa [List.append_nil, List.nil_append, scanLines] at this

theorem feed_no_newline_events (st : PState) (t : Line) (hp : '\n' ∉ st.pending)
    (ht : '\n' ∉ t) : (feed st t).2 = [] := by
  have hpt : '\n' ∉ st.pending ++ t := by
    intro hm
    rcases List.mem_append.mp hm with h1 | h1
    · exact hp h1
    · exact ht h1
  simp [feed, splitLines, scanLines_no_newline _ hpt, procLines]

theorem feedList_append (xs : List Line) : ∀ (st : PState) (ys : List Line),
    feedList st (xs ++ ys) =
      ((feedList (feedList st xs).1 ys).1,
       (feedList st xs).2 ++ (feedList (feedList st xs).1 ys).2) := by
  induction xs with
  | nil => intro st ys; simp [feedList]
  | cons c cs ih => intro st ys; simp [feedList, ih, List.append_assoc]

theorem feedList_pending_no_newline : ∀ (cs : List Line) (st : PState),
    '\n' ∉ st.pending → '\n' ∉ (feedList st cs).1.pending := by
  intro cs
  induction cs with
  | nil => intro st h; exact h
  | cons c tl ih =>
    intro st _
    exact ih (feed st c).1 (feed_pending_no_newline st c)

/-! ## Read-loop lemmas -/

theorem readPhase_none_chunks : ∀ (cs : List Line) (i : Nat) (st : PState),
    readPhase none i st (cs.map ReadRes.chunk ++ [ReadRes.done])
      = ((feedList st cs).2, none) := by
  intro cs
  induction cs with
  | nil => intro i st; simp [readPhase, cancelledAt, feedList]
  | cons c tl ih =>
    intro i st
    simp [readPhase, cancelledAt, feedList, ih]

theorem readPhase_cancel_take (k : Nat) : ∀ (rs : List ReadRes) (i : Nat) (st : PState),
    (readPhase (some k) i st rs).1 = (readPhase none i st (rs.take (k - i))).1 := by
  intro rs
  induction rs with
  | nil => intro i st; simp [readPhase]
  | cons r rest ih =>
    intro i st
    by_cases hk : k ≤ i
    · rw [Nat.sub_eq_zero_of_le hk]
      simp [readPhase, cancelledAt, hk]
    · have hs : k - i = (k - (i + 1)) + 1 := by omega
      rw [hs, List.take_succ_cons]
      cases r with
      | done => simp [readPhase, cancelledAt, hk]
      | fail => simp [readPhase, cancelledAt, hk]
      | chunk s => simp [readPhase, cancelledAt, hk, ih]

theorem readPhase_cancel_chunks_ok (k : Nat) : ∀ (rs : List ReadRes) (i : Nat) (st : PState),
    (∀ r ∈ rs.take (k - i), r.isChunk = true) →
    (readPhase (some k) i st rs).2 ≠ some false := by
  intro rs
  induction rs with
  | nil => intro i st _; simp [readPhase]
  | cons r rest ih =>
    intro i st hall
    by_cases hk : k ≤ i
    · simp [readPhase, cancelledAt, hk]
    · have hs : k - i = (k - (i + 1)) + 1 := by omega
      rw [hs, List.take_succ_cons] at hall
      have hr : r.isChunk = true := hall r (List.mem_cons_self _ _)
      cases r with
      | done => simp [ReadRes.isChunk] at hr
      | fail => simp [ReadRes.isChunk] at hr
      | chunk s =>
        simp only [readPhase, cancelledAt, hk]
        rw [if_neg (by simpa using hk)]
        exact ih (i + 1) (feed st s).1 fun x hx => hall x (List.mem_cons_of_mem _ hx)

theorem readPhase_false_fail (c : Option Nat) : ∀ (rs : List ReadRes) (i : Nat) (st : PState),
    (readPhase c i st rs).2 = some false → ReadRes.fail ∈ rs := by
  intro rs
  induction rs with
  | nil => intro i st h; simp [readPhase] at h
  | cons r rest ih =>
    intro i st h
    by_cases hc : cancelledAt c i = true
    · simp [readPhase, hc] at h
    · cases r with
      | done => simp [readPhase, hc] at h
      | fail => exact List.mem_cons_self _ _
      | chunk s =>
        simp only [readPhase, cancelledAt] at h
        rw [if_neg (by simpa using hc)] at h
        exact List.mem_cons_of_mem _ (ih (i + 1) (feed st s).1 (by simpa using h))

theorem readPhase_no_fail (c : Option Nat) (rs : List ReadRes) (i : Nat) (st : PState)
    (h : ReadRes.fail ∉ rs) : (readPhase c i st rs).2 ≠ some false :=
  fun hf => h (readPhase_false_fail c rs i st hf)

theorem runAttempt_err (a : Attempt) :
    (runAttempt a).2 = if (tryBody a).2 = some false then 1 else 0 := by
  unfold runAttempt
  cases h : (tryBody a).2 with
  | none => simp [h]
  | some b => cases b <;> simp [h]

theorem tryBody_false (a : Attempt) (h : (tryBody a).2 = some false) :
    a.tokenOk = false ∨ a.responseOk = false ∨ ReadRes.fail ∈ a.reads := by
  unfold tryBody at h
  by_cases hc0 : cancelledAt a.cancel 0 = true
  · simp [hc0] at h
  · by_cases ht : a.tokenOk = true
    · by_cases hc1 : cancelledAt a.cancel 1 = true
      · simp [hc0, ht, hc1] at h
      · by_cases hr : a.responseOk = true
        · rw [if_neg (by simpa using hc0), if_neg (by simp [ht]),
            if_neg (by simpa using hc1), if_neg (by simp [hr])] at h
          exact Or.inr (Or.inr (readPhase_false_fail _ _ _ _ h))
        · exact Or.inr (Or.inl (by simpa using hr))
    · exact Or.inl (by simpa using ht)

theorem runAttempt_msgs (a : Attempt) : (runAttempt a).1 = (tryBody a).1 := rfl

theorem tryBody_cancel_msgs (tok resp : Bool) (reads : List ReadRes) (k : Nat) :
    (tryBody ⟨tok, resp, reads, some k⟩).1
      = (tryBody ⟨tok, resp, reads.take (k - 2), none⟩).1 := by
  unfold tryBody
  by_cases hk0 : k ≤ 0
  · have h2 : k - 2 = 0 := by omega
    simp only [h2, List.take_zero]
    have hc : cancelledAt (some k) 0 = true := by simp [cancelledAt, hk0]
    simp only [hc]
    cases tok <;> cases resp <;> simp [cancelledAt, readPhase]
  · by_cases hk1 : k ≤ 1
    · have h2 : k - 2 = 0 := by omega
      have hc0 : cancelledAt (some k) 0 = false := by
        simp only [cancelledAt, decide_eq_false_iff_not]; omega
      have hc1 : cancelledAt (some k) 1 = true := by simp [cancelledAt, hk1]
      simp only [h2, List.take_zero, hc0, hc1]
      cases tok <;> cases resp <;> simp [cancelledAt, readPhase]
    · have hc0 : cancelledAt (some k) 0 = false := by
        simp only [cancelledAt, decide_eq_false_iff_not]; omega
      have hc1 : cancelledAt (some k) 1 = false := by
        simp only [cancelledAt, decide_eq_false_iff_not]; omega
      simp only [hc0, hc1]
      cases tok <;> cases resp <;>
        simp [cancelledAt, readPhase_cancel_take k reads 2 initState]

theorem tryBody_cancel_err (tok resp : Bool) (reads : List ReadRes) (k : Nat)
    (htok : tok = true) (hresp : resp = true)
    (hch : ∀ r ∈ reads.take (k - 2), r.isChunk = true) :
    (runAttempt ⟨tok, resp, reads, some k⟩).2 = 0 := by
  subst htok hresp
  have hne : (tryBody ⟨true, true, reads, some k⟩).2 ≠ some false := by
    unfold tryBody
    by_cases hc0 : cancelledAt (some k) 0 = true
    · simp [hc0]
    · by_cases hc1 : cancelledAt (some k) 1 = true
      · simp [hc0, hc1]
      · rw [if_neg (by simpa using hc0), if_neg (by simp),
          if_neg (by simpa using hc1), if_neg (by simp)]
        exact readPhase_cancel_chunks_ok k reads 2 initState hch
  rw [runAttempt_err, if_neg hne]

/-! ## The claims -/

/-- C1: chunk-boundary invariance of the frame parser.  Feeding any list of
chunks one at a time through the parse loop yields exactly the same parser
state and the same ordered list of emitted records as feeding the whole
concatenated input as a single chunk; split points, including splits
mid-line, never affect the output. -/
theorem spec_chunk_invariance (chunks : List Line) :
    feedList initState chunks = feed initState chunks.flatten :=
  feedList_eq_feed_join chunks initState (by simp [initState])

/-- C2 counterexample: a block with a `data` field and no `event` field is
delivered with `event = none`, not with the conventional `"message"` label —
the code applies no default. -/
theorem spec_message_default_counterexample :
    (feed initState "data: x\n\n".toList).2 = [⟨none, "x".toList, none⟩]
    ∧ (none : Option Line) ≠ some "message".toList := ⟨rfl, by decide⟩

/-- C2 amended: for every sequence of complete lines none of which reaches
the `event` case of the switch, every record delivered to `onMessage` has
its `event` field absent (`none`); no `"message"` default is applied. -/
theorem spec_no_event_field_yields_none (ls : List Line)
    (h : ∀ l ∈ ls, setsEvent l = false) :
    ∀ m ∈ (procLines Acc.empty ls).2, m.event = none :=
  (procLines_no_event ls Acc.empty h rfl).2

theorem spec_no_event_field_yields_none_witness :
    (procLines Acc.empty ["data: x".toList, []]).2 = [⟨none, "x".toList, none⟩]
    ∧ (⟨none, "x".toList, none⟩ : SSEMessage).event = none :=
  ⟨by decide, spec_no_event_field_yields_none ["data: x".toList, []] (by decide)
    ⟨none, "x".toList, none⟩ (by decide)⟩

/-- C3 counterexample: with data values `""` then `"b"` the emitted record
carries `"b"`, not the newline-join `"\nb"` — joining onto an empty
accumulated value drops the separator. -/
theorem spec_data_join_counterexample :
    (feed initState "data:\ndata: b\n\n".toList).2 = [⟨none, "b".toList, none⟩]
    ∧ "b".toList ≠ '\n' :: "b".toList := ⟨rfl, by decide⟩

/-- C3 amended: a block of `data` lines carrying values `vs` terminated by a
blank line emits one record whose data is the values joined with `'\n'`
except that a value arriving while the accumulation is still empty is taken
as-is (no separator); the record is emitted only if the result is
non-empty. -/
theorem spec_data_join_amended (vs : List Line) :
    (procLines Acc.empty (vs.map mkDataLine ++ [[]])).2 =
      if joinSem vs = [] then [] else [⟨none, joinSem vs, none⟩] := by
  rw [procLines_append, procLines_dataLines]
  simp only [Acc.empty, foldl_step_none]
  by_cases hv : vs = []
  · simp [hv, procLines, procLine, jsTrim, truthy, joinSem]
  · rw [if_neg hv]
    by_cases hj : joinSem vs = []
    · rw [if_pos hj, hj]
      simp [procLines, procLine, jsTrim, truthy]
    · rw [if_neg hj]
      have htr : truthy (some (joinSem vs)) = true := by
        simp [truthy, hj]
      simp [procLines, procLine, jsTrim, htr]

/-- C4: a record is emitted only at a blank line with truthy accumulated
data; every blank line resets the accumulator (so a repeated blank emits
nothing further); and a block of lines none of which reaches the `data`
case emits nothing. -/
theorem spec_emission_only_on_blank (acc : Acc) (l : Line) (ls : List Line) :
    ((procLine acc l).2 ≠ [] → jsTrim l = [] ∧ truthy acc.data = true)
    ∧ (jsTrim l = [] →
        (procLine acc l).1 = Acc.empty ∧ (procLine (procLine acc l).1 l).2 = [])
    ∧ ((∀ x ∈ ls, setsData x = false) → truthy acc.data = false →
        (procLines acc ls).2 = []) := by
  refine ⟨?_, ?_, ?_⟩
  · intro hne
    by_cases h1 : jsTrim l = []
    · by_cases ht : truthy acc.data = true
      · exact ⟨h1, ht⟩
      · have : (procLine acc l).2 = [] := by
          simp [procLine, h1, eq_false_of_ne_true ht]
        exact absurd this hne
    · exact absurd (procLine_nonblank_no_emit acc l h1) hne
  · intro h1
    have hAcc : (procLine acc l).1 = Acc.empty := by simp [procLine, h1]
    refine ⟨hAcc, ?_⟩
    rw [hAcc]
    simp [procLine, h1, Acc.empty, truthy]
  · exact fun hs ht => (procLines_no_data ls acc hs ht).1

theorem spec_emission_only_on_blank_witness :
    (procLine ⟨none, some ['x'], none⟩ ([] : Line)).1 = Acc.empty
    ∧ (procLine (procLine ⟨none, some ['x'], none⟩ ([] : Line)).1 []).2 = []
    ∧ (procLines Acc.empty ["id: 1".toList, "event: e".toList, []]).2 = [] :=
  ⟨((spec_emission_only_on_blank ⟨none, some ['x'], none⟩ [] []).2.1 (by decide)).1,
   ((spec_emission_only_on_blank ⟨none, some ['x'], none⟩ [] []).2.1 (by decide)).2,
   (spec_emission_only_on_blank Acc.empty []
      ["id: 1".toList, "event: e".toList, []]).2.2 (by decide) (by decide)⟩

/-- C5: a partial trailing record is discarded.  A trailing newline-free
fragment followed by a normal end-of-stream contributes no record and the
attempt reports zero errors; more generally a run of lines with no blank
line emits nothing. -/
theorem spec_trailing_fragment_dropped (chunks : List Line) (t : Line) (acc : Acc)
    (ls : List Line) :
    ('\n' ∉ t →
      runAttempt ⟨true, true, (chunks ++ [t]).map ReadRes.chunk ++ [ReadRes.done], none⟩
        = ((feedList initState chunks).2, 0))
    ∧ ((∀ l ∈ ls, jsTrim l ≠ []) → (procLines acc ls).2 = []) := by
  constructor
  · intro ht
    have h0 : tryBody
        ⟨true, true, (chunks ++ [t]).map ReadRes.chunk ++ [ReadRes.done], none⟩
        = ((feedList initState (chunks ++ [t])).2, none) := by
      rw [show tryBody
          ⟨true, true, (chunks ++ [t]).map ReadRes.chunk ++ [ReadRes.done], none⟩
          = readPhase none 2 initState
              ((chunks ++ [t]).map ReadRes.chunk ++ [ReadRes.done]) from rfl,
        readPhase_none_chunks]
    have h1 : runAttempt
        ⟨true, true, (chunks ++ [t]).map ReadRes.chunk ++ [ReadRes.done], none⟩
        = ((feedList initState (chunks ++ [t])).2, 0) := by
      simp only [runAttempt]
      rw [h0]
    rw [h1, feedList_append chunks initState [t]]
    have hp : '\n' ∉ (feedList initState chunks).1.pending :=
      feedList_pending_no_newline chunks initState (by simp [initState])
    have h2 : (feedList (feedList initState chunks).1 [t]).2 = [] := by
      simp [feedList, feed_no_newline_events _ t hp ht]
    simp [h2]
  · exact fun h => procLines_nonblank_no_emit ls acc h

theorem spec_trailing_fragment_dropped_witness :
    runAttempt ⟨true, true, [ReadRes.chunk "data: x".toList, ReadRes.done], none⟩ = ([], 0)
    ∧ (procLines Acc.empty ["data: x".toList]).2 = [] := by
  constructor
  · have h := (spec_trailing_fragment_dropped [] "data: x".toList Acc.empty []).1 (by decide)
    simpa using h
  · exact (spec_trailing_fragment_dropped [] [] Acc.empty ["data: x".toList]).2 (by decide)

/-- C6: line parsing rules.  A non-blank line starting with `:` is ignored
with no field update; a non-blank line with no `:` is ignored; any other
line splits at the first `:` into field name and value, with at most one
leading space stripped from the value (`stripLeadSpace` removes exactly one
space when present and nothing otherwise). -/
theorem spec_line_field_rules (acc : Acc) (l f v w : Line) :
    (jsTrim l ≠ [] → l.head? = some ':' → procLine acc l = (acc, []))
    ∧ (jsTrim l ≠ [] → ':' ∉ l → procLine acc l = (acc, []))
    ∧ (':' ∉ f → procLine acc (f ++ ':' :: v) = (applyField acc f (stripLeadSpace v), []))
    ∧ stripLeadSpace (' ' :: w) = w
    ∧ (w.head? ≠ some ' ' → stripLeadSpace w = w) := by
  refine ⟨?_, ?_, ?_, ?_, ?_⟩
  · intro h1 h2
    unfold procLine
    rw [if_neg h1, if_pos h2]
  · intro h1 h3
    have h2 : ¬l.head? = some ':' := by
      intro hh
      cases l with
      | nil => simp at hh
      | cons a t =>
        simp at hh
        subst hh
        exact h3 (List.mem_cons_self _ _)
    unfold procLine
    rw [if_neg h1, if_neg h2, if_neg h3]
  · exact procLine_field acc f v
  · simp [stripLeadSpace]
  · intro h; simp [stripLeadSpace, h]

theorem spec_line_field_rules_witness :
    procLine Acc.empty ": heartbeat".toList = (Acc.empty, [])
    ∧ procLine Acc.empty "hello world".toList = (Acc.empty, [])
    ∧ procLine Acc.empty ("data".toList ++ ':' :: " v".toList)
        = (applyField Acc.empty "data".toList (stripLeadSpace " v".toList), [])
    ∧ stripLeadSpace (' ' :: "x".toList) = "x".toList
    ∧ stripLeadSpace "x".toList = "x".toList :=
  ⟨(spec_line_field_rules Acc.empty ": heartbeat".toList [] [] []).1
      (by decide) (by decide),
   (spec_line_field_rules Acc.empty "hello world".toList [] [] []).2.1
      (by decide) (by decide),
   (spec_line_field_rules Acc.empty [] "data".toList " v".toList []).2.2.1 (by decide),
   (spec_line_field_rules Acc.empty [] [] [] "x".toList).2.2.2.1,
   (spec_line_field_rules Acc.empty [] [] [] "x".toList).2.2.2.2 (by decide)⟩

/-- C7: after cancellation is requested before await number `k`, only the
fragments whose reads completed before the cancellation produce messages
(a fragment arriving after `stop()` never reaches `onMessage`), and if
every read completed before the cancellation was a successful fragment then
no `onError` is invoked — in particular a read failing after cancellation
is suppressed. -/
theorem spec_cancellation_suppresses (tok resp : Bool) (reads : List ReadRes) (k : Nat) :
    (runAttempt ⟨tok, resp, reads, some k⟩).1
      = (runAttempt ⟨tok, resp, reads.take (k - 2), none⟩).1
    ∧ (tok = true → resp = true → (∀ r ∈ reads.take (k - 2), r.isChunk = true) →
        (runAttempt ⟨tok, resp, reads, some k⟩).2 = 0) := by
  constructor
  · rw [runAttempt_msgs, runAttempt_msgs]
    exact tryBody_cancel_msgs tok resp reads k
  · exact fun h1 h2 h3 => tryBody_cancel_err tok resp reads k h1 h2 h3

theorem spec_cancellation_suppresses_witness :
    (runAttempt ⟨true, true, [ReadRes.chunk "data: x\n\n".toList, ReadRes.fail],
        some 2⟩).1 = []
    ∧ (runAttempt ⟨true, true, [ReadRes.chunk "data: x\n\n".toList, ReadRes.fail],
        some 2⟩).2 = 0 := by
  have h := spec_cancellation_suppresses true true
    [ReadRes.chunk "data: x\n\n".toList, ReadRes.fail] 2
  exact ⟨by rw [h.1]; decide, h.2 rfl rfl (by decide)⟩

/-- C8: `onError` fires at most once per attempt; if it fires there was a
genuine failure (token rejection, non-ok response, or a read failure); and
with a good token, an ok response and no read failure it never fires — in
particular not for normal end-of-stream and not for a cancellation-induced
abort. -/
theorem spec_onerror_at_most_once (a : Attempt) :
    (runAttempt a).2 ≤ 1
    ∧ ((runAttempt a).2 = 1 →
        a.tokenOk = false ∨ a.responseOk = false ∨ ReadRes.fail ∈ a.reads)
    ∧ (a.tokenOk = true → a.responseOk = true → ReadRes.fail ∉ a.reads →
        (runAttempt a).2 = 0) := by
  refine ⟨?_, ?_, ?_⟩
  · rw [runAttempt_err]; split <;> simp
  · intro h1
    by_cases hf : (tryBody a).2 = some false
    · exact tryBody_false a hf
    · rw [runAttempt_err, if_neg hf] at h1
      exact absurd h1 (by simp)
  · intro ht hr hnf
    have hne : (tryBody a).2 ≠ some false := by
      unfold tryBody
      by_cases hc0 : cancelledAt a.cancel 0 = true
      · simp [hc0]
      · by_cases hc1 : cancelledAt a.cancel 1 = true
        · simp [hc0, hc1, ht]
        · rw [if_neg (by simpa using hc0), if_neg (by simp [ht]),
            if_neg (by simpa using hc1), if_neg (by simp [hr])]
          exact readPhase_no_fail _ _ _ _ hnf
    rw [runAttempt_err, if_neg hne]

theorem spec_onerror_at_most_once_witness :
    (runAttempt ⟨true, true, [ReadRes.chunk "data: x\n\n".toList, ReadRes.done],
        none⟩).2 ≤ 1
    ∧ (runAttempt ⟨true, true, [ReadRes.chunk "data: x\n\n".toList, ReadRes.done],
        none⟩).2 = 0 :=
  ⟨(spec_onerror_at_most_once
      ⟨true, true, [ReadRes.chunk "data: x\n\n".toList, ReadRes.done], none⟩).1,
   (spec_onerror_at_most_once
      ⟨true, true, [ReadRes.chunk "data: x\n\n".toList, ReadRes.done], none⟩).2.2
      rfl rfl (by decide)⟩

/-- C9: field names are matched exactly and case-sensitively; any field
name other than `event`, `data` and `id` (hence `Event`, `DATA`, `data `
with a trailing space, and also `retry`) leaves the accumulator completely
unchanged and emits nothing. -/
theorem spec_field_names_case_sensitive (acc : Acc) (f v : Line) (h : ':' ∉ f)
    (he : f ≠ "event".toList) (hd : f ≠ "data".toList) (hi : f ≠ "id".toList) :
    procLine acc (f ++ ':' :: v) = (acc, []) := by
  rw [procLine_field acc f v h, applyField_other acc f _ he hd hi]

theorem spec_field_names_case_sensitive_witness :
    procLine ⟨some ['e'], some ['x'], some ['i']⟩ "Event: a".toList
      = (⟨some ['e'], some ['x'], some ['i']⟩, [])
    ∧ procLine ⟨some ['e'], some ['x'], some ['i']⟩ "DATA: b".toList
      = (⟨some ['e'], some ['x'], some ['i']⟩, [])
    ∧ procLine ⟨some ['e'], some ['x'], some ['i']⟩ "data : c".toList
      = (⟨some ['e'], some ['x'], some ['i']⟩, []) :=
  ⟨spec_field_names_case_sensitive _ "Event".toList " a".toList
      (by decide) (by decide) (by decide) (by decide),
   spec_field_names_case_sensitive _ "DATA".toList " b".toList
      (by decide) (by decide) (by decide) (by decide),
   spec_field_names_case_sensitive _ "data ".toList " c".toList
      (by decide) (by decide) (by decide) (by decide)⟩

/-- C10: input is split into lines only on `'\n'` (re-joining the split
lines with `'\n'` and the pending tail reconstructs the input exactly);
field values are never right-trimmed, so a value keeps a trailing `'\r'`
verbatim; a line consisting only of `'\r'` trims to empty and therefore
terminates the record; concretely the bytes `"data: x\r\n\r\n"` emit one
record with data `"x\r"`. -/
theorem spec_cr_retained (v s : Line) :
    (procLine Acc.empty ("data: ".toList ++ v)).1.data = some v
    ∧ joinLines (splitLines s).1 (splitLines s).2 = s
    ∧ jsTrim ['\r'] = []
    ∧ (feed initState "data: x\r\n\r\n".toList).2 = [⟨none, "x\r".toList, none⟩] := by
  refine ⟨?_, ?_, by decide, rfl⟩
  · rw [show "data: ".toList ++ v = mkDataLine v from rfl, procLine_dataLine]
    simp [Acc.empty, truthy]
  · simpa [splitLines] using joinLines_scanLines s []

end SSE
